import Mathlib

/-! Loop interchange pass (lib/Transforms/LoopInterchange.cpp).

A shallow embedding of the affine loop interchange pass and of the innermost
loop gatherer declared inside it, followed by theorems relating the code to the
statements of its specification.

The IR is embedded as a finite tree: an operation carries a kind and a list of
regions, a region is a list of blocks, a block is a list of operations.  A
handle to an operation (an `AffineForOp`, an `Operation *`) is embedded as the
operation it designates.
-/

namespace LoopInterchange

/-! ## Data model -/

/-- An affine bound: the induction variables it refers to and a constant term. -/
structure AffineBound where
  operands : List Nat
  constant : Int
deriving DecidableEq, Repr

/-- The header of an affine loop: induction variable, bounds and step. -/
structure LoopHeader where
  iv : Nat
  lowerBound : AffineBound
  upperBound : AffineBound
  step : Nat
deriving DecidableEq, Repr

/-- The kinds of operation the pass distinguishes: affine loops and the rest
(the outcome of `isa<AffineForOp>`). -/
inductive OpKind where
  | affineFor (header : LoopHeader)
  | other (opcode : Nat)
deriving DecidableEq, Repr

/-- An operation with its nested regions; each region is a list of blocks and
each block a list of operations. -/
inductive Operation where
  | mk (kind : OpKind) (regions : List (List (List Operation)))

/-- A block: the operations between `begin()` and `end()`. -/
abbrev Block := List Operation

/-- A region: a list of blocks. -/
abbrev Region := List Block

/-- A function body: the blocks iterated by `for (auto &b : f)`. -/
abbrev FuncOp := List Block

/-- The kind of an operation. -/
def Operation.kind : Operation → OpKind
  | .mk k _ => k

/-- The regions of an operation (`getRegions`). -/
def Operation.regions : Operation → List Region
  | .mk _ rs => rs

/-- The test `isa<AffineForOp>(opInst)`. -/
def isAffineFor : Operation → Bool
  | .mk (.affineFor _) _ => true
  | .mk (.other _) _ => false

mutual
/-- Decidable equality of operations. -/
def decEqOperation (a b : Operation) : Decidable (a = b) :=
  match a with
  | .mk k1 r1 =>
    match b with
    | .mk k2 r2 =>
      if hk : k1 = k2 then
        match decEqRegions r1 r2 with
        | isTrue h => isTrue (by rw [hk, h])
        | isFalse h => isFalse (fun e => h (by injection e))
      else isFalse (fun e => hk (by injection e))
termination_by structural a
/-- Decidable equality of region lists. -/
def decEqRegions (a b : List (List (List Operation))) : Decidable (a = b) :=
  match a with
  | [] =>
    match b with
    | [] => isTrue rfl
    | _ :: _ => isFalse (fun e => by cases e)
  | x :: xs =>
    match b with
    | [] => isFalse (fun e => by cases e)
    | y :: ys =>
      match decEqBlocks x y with
      | isTrue h1 =>
        match decEqRegions xs ys with
        | isTrue h2 => isTrue (by rw [h1, h2])
        | isFalse h => isFalse (fun e => h (by injection e))
      | isFalse h => isFalse (fun e => h (by injection e))
termination_by structural a
/-- Decidable equality of block lists. -/
def decEqBlocks (a b : List (List Operation)) : Decidable (a = b) :=
  match a with
  | [] =>
    match b with
    | [] => isTrue rfl
    | _ :: _ => isFalse (fun e => by cases e)
  | x :: xs =>
    match b with
    | [] => isFalse (fun e => by cases e)
    | y :: ys =>
      match decEqOps x y with
      | isTrue h1 =>
        match decEqBlocks xs ys with
        | isTrue h2 => isTrue (by rw [h1, h2])
        | isFalse h => isFalse (fun e => h (by injection e))
      | isFalse h => isFalse (fun e => h (by injection e))
termination_by structural a
/-- Decidable equality of operation lists. -/
def decEqOps (a b : List Operation) : Decidable (a = b) :=
  match a with
  | [] =>
    match b with
    | [] => isTrue rfl
    | _ :: _ => isFalse (fun e => by cases e)
  | x :: xs =>
    match b with
    | [] => isFalse (fun e => by cases e)
    | y :: ys =>
      match decEqOperation x y with
      | isTrue h1 =>
        match decEqOps xs ys with
        | isTrue h2 => isTrue (by rw [h1, h2])
        | isFalse h => isFalse (fun e => h (by injection e))
      | isFalse h => isFalse (fun e => h (by injection e))
termination_by structural a
end

instance : DecidableEq Operation := decEqOperation

mutual
/-- Whether an operation is an affine loop or has one nested anywhere inside. -/
def hasLoopOp : Operation → Bool
  | .mk k rs => (match k with | .affineFor _ => true | .other _ => false) || hasLoopRegions rs
/-- Whether some region of the list contains an affine loop. -/
def hasLoopRegions : List (List (List Operation)) → Bool
  | [] => false
  | r :: rs => hasLoopBlocks r || hasLoopRegions rs
/-- Whether some block of the list contains an affine loop. -/
def hasLoopBlocks : List (List Operation) → Bool
  | [] => false
  | b :: bs => hasLoopOps b || hasLoopBlocks bs
/-- Whether some operation of the list is or contains an affine loop. -/
def hasLoopOps : List Operation → Bool
  | [] => false
  | o :: os => hasLoopOp o || hasLoopOps os
end

mutual
/-- Every operation at or below an operation, nested ones first. -/
def postOrderOp : Operation → List Operation
  | .mk k rs => postOrderRegions rs ++ [.mk k rs]
/-- Every operation of a list of regions, in post-order. -/
def postOrderRegions : List (List (List Operation)) → List Operation
  | [] => []
  | r :: rs => postOrderBlocks r ++ postOrderRegions rs
/-- Every operation of a list of blocks, in post-order. -/
def postOrderBlocks : List (List Operation) → List Operation
  | [] => []
  | b :: bs => postOrderOps b ++ postOrderBlocks bs
/-- Every operation of a block, in post-order. -/
def postOrderOps : List Operation → List Operation
  | [] => []
  | o :: os => postOrderOp o ++ postOrderOps os
end

/-- An innermost loop: an affine loop with no affine loop nested anywhere
inside it. -/
def isInnermostLoop (op : Operation) : Bool :=
  isAffineFor op && !hasLoopRegions op.regions

/-! ## InnermostLoopGatherer

The member vector `loops` is threaded through the walk; every overload returns
the vector after it ran, next to its own return value. -/

namespace InnermostLoopGatherer

mutual
/-- The overload `bool walkPostOrder(Operation *opInst)`. -/
def walkPostOrderOp : Operation → List Operation → Bool × List Operation
  | .mk k rs, loops =>
    let r := walkPostOrderRegions rs false loops
    match k with
    | .affineFor _ =>
      if !r.1 then (true, r.2 ++ [.mk k rs]) else (true, r.2)
    | .other _ => (r.1, r.2)
/-- The loop `for (auto &region : opInst->getRegions())` with its accumulator
`hasInnerLoops`. -/
def walkPostOrderRegions : List (List (List Operation)) → Bool → List Operation →
    Bool × List Operation
  | [], hasInnerLoops, loops => (hasInnerLoops, loops)
  | r :: rs, hasInnerLoops, loops =>
    let s := walkPostOrderBlocks r hasInnerLoops loops
    walkPostOrderRegions rs s.1 s.2
/-- The loop `for (auto &block : region)`, each block walked by the iterator
overload and or-ed into `hasInnerLoops`. -/
def walkPostOrderBlocks : List (List Operation) → Bool → List Operation →
    Bool × List Operation
  | [], hasInnerLoops, loops => (hasInnerLoops, loops)
  | b :: bs, hasInnerLoops, loops =>
    let s := walkPostOrderRange b false loops
    walkPostOrderBlocks bs (hasInnerLoops || s.1) s.2
/-- The overload `bool walkPostOrder(Block::iterator Start, Block::iterator End)`:
the `while (Start != End)` loop with its accumulator `hasInnerLoops`. -/
def walkPostOrderRange : List Operation → Bool → List Operation → Bool × List Operation
  | [], hasInnerLoops, loops => (hasInnerLoops, loops)
  | o :: os, hasInnerLoops, loops =>
    let s := walkPostOrderOp o loops
    walkPostOrderRange os (hasInnerLoops || s.1) s.2
end

/-- The overload `void walkPostOrder(FuncOp f)`: walks every block of the
function, discarding the returned flags. -/
def walkPostOrderFunc : FuncOp → List Operation → List Operation
  | [], loops => loops
  | b :: bs, loops => walkPostOrderFunc bs (walkPostOrderRange b false loops).2

/-- The member `loops` after `walkPostOrder(f)` ran on a fresh gatherer. -/
def walkPostOrder (f : FuncOp) : List Operation :=
  walkPostOrderFunc f []

end InnermostLoopGatherer

/-! ## The pass -/

/-- Modelled from the spec: the IR walk primitive behind `getFunction().walk`,
whose body is not in the file. Section 6: "given a region, yields its
constructs in post-order, exposing which are loop constructs". The callback of
runOnFunction takes an `AffineForOp`, so it is run on the affine loops only. -/
def walkAffineForOps (f : FuncOp) : List Operation :=
  (postOrderBlocks f).filter isAffineFor

/-- The exception thrown by `std::vector::at`. -/
inductive Exception where
  | outOfRange
deriving DecidableEq, Repr

/-- Decidable equality of outcomes. -/
instance decEqExcept {ε α : Type} [DecidableEq ε] [DecidableEq α] : DecidableEq (Except ε α)
  | .ok a, .ok b => if h : a = b then isTrue (by rw [h]) else isFalse (fun e => h (by injection e))
  | .error a, .error b =>
    if h : a = b then isTrue (by rw [h]) else isFalse (fun e => h (by injection e))
  | .ok _, .error _ => isFalse (fun e => by cases e)
  | .error _, .ok _ => isFalse (fun e => by cases e)

/-- The accessor `std::vector::at`: range-checked indexing. -/
def vectorAt {α : Type} (v : List α) (n : Nat) : Except Exception α :=
  match v[n]? with
  | some x => .ok x
  | none => .error .outOfRange

/-- The calls by which the pass mutates the IR. The only one is to the helper
`interchangeLoops` of mlir/Transforms/LoopUtils.h. -/
inductive Effect where
  | interchangeLoops (forOpA forOpB : Operation)
deriving DecidableEq

/-- The method `LoopInterchange::runOnFunction`: the sequence of mutating calls
it issues on a function, or the exception it throws. -/
def runOnFunction (f : FuncOp) : Except Exception (List Effect) :=
  let loops := walkAffineForOps f
  if loops.length ≥ 2 then do
    let forOpA ← vectorAt loops 1
    let forOpB ← vectorAt loops 0
    pure [Effect.interchangeLoops forOpA forOpB]
  else
    pure []

/-- Whether runOnFunction goes on to interchange: the outcome of the test that
guards its call of the helper. -/
def issuesInterchange (f : FuncOp) : Bool :=
  match runOnFunction f with
  | .ok (_ :: _) => true
  | _ => false

/-- The IR after a sequence of calls was carried out by a given implementation
of the helper. -/
def applyEffects (impl : Operation → Operation → FuncOp → FuncOp) :
    List Effect → FuncOp → FuncOp
  | [], f => f
  | .interchangeLoops forOpA forOpB :: es, f => applyEffects impl es (impl forOpA forOpB f)

/-- One run of the pass on a function, the helper being carried out by `impl`:
the IR it leaves, or the exception thrown. -/
def runPass (impl : Operation → Operation → FuncOp → FuncOp) (f : FuncOp) :
    Except Exception FuncOp :=
  match runOnFunction f with
  | .ok effects => .ok (applyEffects impl effects f)
  | .error e => .error e

/-- The type `LogicalResult`. -/
inductive LogicalResult where
  | success
  | failure
deriving DecidableEq, Repr

/-- The method `LoopInterchange::runOnAffineForOp`: its result, and the loop as
it leaves it. The body prints a line and returns `success()`. -/
def runOnAffineForOp (forOp : Operation) : LogicalResult × Operation :=
  (LogicalResult.success, forOp)

/-! ## Nesting -/

/-- The inner loop is the only content of the body of the outer loop. -/
def perfectlyNested (outer inner : Operation) : Bool :=
  isAffineFor outer && isAffineFor inner && decide (outer.regions = [[[inner]]])

/-- The first operation occurs somewhere inside the regions of the second. -/
def nestedIn (inner outer : Operation) : Bool :=
  decide (inner ∈ postOrderRegions outer.regions)

/-- A perfectly nested chain of the given depth rooted at an operation: every
loop but the last has the next loop as its whole body, and the last one has no
loop inside. -/
def isPerfectChain : Nat → Operation → Bool
  | 0, _ => false
  | 1, op => isInnermostLoop op
  | d + 2, .mk (.affineFor _) [[[child]]] => isPerfectChain (d + 1) child
  | _ + 2, _ => false

mutual
/-- The outermost loops at or below an operation: the roots of its maximal
loop nests, in program order. -/
def outerLoopsOp : Operation → List Operation
  | .mk (.affineFor h) rs => [.mk (.affineFor h) rs]
  | .mk (.other _) rs => outerLoopsRegions rs
/-- The outermost loops of a list of regions. -/
def outerLoopsRegions : List (List (List Operation)) → List Operation
  | [] => []
  | r :: rs => outerLoopsBlocks r ++ outerLoopsRegions rs
/-- The outermost loops of a list of blocks. -/
def outerLoopsBlocks : List (List Operation) → List Operation
  | [] => []
  | b :: bs => outerLoopsOps b ++ outerLoopsBlocks bs
/-- The outermost loops of a block. -/
def outerLoopsOps : List Operation → List Operation
  | [] => []
  | o :: os => outerLoopsOp o ++ outerLoopsOps os
end

/-- The loops of a function form a single perfectly nested chain of the given
depth: there is one outermost loop, and it roots such a chain. -/
def loopsFormOneChain (d : Nat) (f : FuncOp) : Bool :=
  match outerLoopsBlocks f with
  | [c] => isPerfectChain d c
  | _ => false

mutual
/-- Rewrite every outermost loop at or below an operation. -/
def mapOuterOp (g : Operation → Operation) : Operation → Operation
  | .mk (.affineFor h) rs => g (.mk (.affineFor h) rs)
  | .mk (.other n) rs => .mk (.other n) (mapOuterRegions g rs)
/-- Rewrite every outermost loop of a list of regions. -/
def mapOuterRegions (g : Operation → Operation) : List (List (List Operation)) →
    List (List (List Operation))
  | [] => []
  | r :: rs => mapOuterBlocks g r :: mapOuterRegions g rs
/-- Rewrite every outermost loop of a list of blocks. -/
def mapOuterBlocks (g : Operation → Operation) : List (List Operation) →
    List (List Operation)
  | [] => []
  | b :: bs => mapOuterOps g b :: mapOuterBlocks g bs
/-- Rewrite every outermost loop of a block. -/
def mapOuterOps (g : Operation → Operation) : List Operation → List Operation
  | [] => []
  | o :: os => mapOuterOp g o :: mapOuterOps g os
end

/-- A two-loop nest: the outer loop holds the inner loop and nothing else, the
inner loop holds the statements. -/
def loopNest2 (outer inner : LoopHeader) (body : Block) : FuncOp :=
  [[.mk (.affineFor outer) [[[.mk (.affineFor inner) [[body]]]]]]]

/-! ## The direction rule of the specification -/

namespace Spec

/-- A component of a dependence direction vector. -/
inductive Direction where
  | less
  | equal
  | greater
  | unknown
deriving DecidableEq, Repr

/-- The verdict of the legality check. -/
inductive Verdict where
  | legal
  | illegal
deriving DecidableEq, Repr

/-- The pairs of components that section 4.2 names as forbidding a swap:
(greater, unknown) and (equal, greater). -/
def forbidsSwap : Direction → Direction → Bool
  | .greater, .unknown => true
  | .equal, .greater => true
  | _, _ => false

/-- The direction rule as section 4.2 words it, for slots i and i+1: Illegal
when some edge has a forbidding pair at those positions, Legal otherwise. The
source has no counterpart of this definition. -/
def check (edges : List (List Direction)) (i : Nat) : Verdict :=
  if edges.any (fun v =>
      match v[i]?, v[i + 1]? with
      | some x, some y => forbidsSwap x y
      | _, _ => false) then Verdict.illegal
  else Verdict.legal

end Spec

/-! ## The helper interchangeLoops -/

/-- Modelled from the spec: what the Permutability Checker takes from outside
the IR, none of it in the file. The Dependence Oracle of sections 2 and 6
answers with the direction vectors of the edges "whose source and sink both lie
within the sub-nest rooted at" a loop; rule (2) of section 4.2 speaks of loops
"marked as carrying an ordering-sensitive side effect". -/
structure Collaborators where
  edges : Operation → List (List Spec.Direction)
  orderingSensitive : Operation → Bool

mutual
/-- The slot of a loop in its nest: the number of affine loops around its
first occurrence at or below an operation, counted from the given depth. -/
def slotOfOp (target : Operation) : Operation → Nat → Option Nat
  | .mk k rs, depth =>
    if Operation.mk k rs = target then some depth
    else
      match k with
      | .affineFor _ => slotOfRegions target rs (depth + 1)
      | .other _ => slotOfRegions target rs depth
/-- The slot of a loop looked up in a list of regions. -/
def slotOfRegions (target : Operation) : List (List (List Operation)) → Nat → Option Nat
  | [], _ => none
  | r :: rs, depth =>
    match slotOfBlocks target r depth with
    | some i => some i
    | none => slotOfRegions target rs depth
/-- The slot of a loop looked up in a list of blocks. -/
def slotOfBlocks (target : Operation) : List (List Operation) → Nat → Option Nat
  | [], _ => none
  | b :: bs, depth =>
    match slotOfOps target b depth with
    | some i => some i
    | none => slotOfBlocks target bs depth
/-- The slot of a loop looked up in a block. -/
def slotOfOps (target : Operation) : List Operation → Nat → Option Nat
  | [], _ => none
  | o :: os, depth =>
    match slotOfOp target o depth with
    | some i => some i
    | none => slotOfOps target os depth
end

mutual
/-- Substitute an operation for the first occurrence of another one, in program
order; the flag tells whether the substitution was already made. A handle is
embedded as the operation it designates, so of several equal operations this
rewrites one only and leaves the others untouched. -/
def replaceFirstOp (old new : Operation) : Operation → Bool → Operation × Bool
  | .mk k rs, done =>
    if done then (.mk k rs, true)
    else if Operation.mk k rs = old then (new, true)
    else
      let r := replaceFirstRegions old new rs false
      (.mk k r.1, r.2)
/-- Substitution for the first occurrence in a list of regions. -/
def replaceFirstRegions (old new : Operation) : List (List (List Operation)) → Bool →
    List (List (List Operation)) × Bool
  | [], done => ([], done)
  | r :: rs, done =>
    let s := replaceFirstBlocks old new r done
    let t := replaceFirstRegions old new rs s.2
    (s.1 :: t.1, t.2)
/-- Substitution for the first occurrence in a list of blocks. -/
def replaceFirstBlocks (old new : Operation) : List (List Operation) → Bool →
    List (List Operation) × Bool
  | [], done => ([], done)
  | b :: bs, done =>
    let s := replaceFirstOps old new b done
    let t := replaceFirstBlocks old new bs s.2
    (s.1 :: t.1, t.2)
/-- Substitution for the first occurrence in a block. -/
def replaceFirstOps (old new : Operation) : List Operation → Bool → List Operation × Bool
  | [], done => ([], done)
  | o :: os, done =>
    let s := replaceFirstOp old new o done
    let t := replaceFirstOps old new os s.2
    (s.1 :: t.1, t.2)
end

/-- Modelled from the spec: the Effect of section 4.3 on the two loops. The
inner header takes the place of the outer one and the outer header moves
beneath it ("their bound/step expressions and shell swap"), the body of the
inner loop stays the innermost body ("re-homed unchanged beneath the new
innermost header"), no induction variable is renamed. Nothing when the sub-nest
is not perfectly nested, that is when the second loop is not the whole body of
the first. -/
def exchangeHeaders : Operation → Operation → Option Operation
  | .mk (.affineFor hA) rsA, .mk (.affineFor hB) rsB =>
    if rsA = [[[Operation.mk (.affineFor hB) rsB]]] then
      some (.mk (.affineFor hB) [[[.mk (.affineFor hA) rsB]]])
    else none
  | _, _ => none

namespace Spec

/-- The diagnostic reason carried by Illegal: "structural vs. dependence-based". -/
inductive Reason where
  | structural
  | dependence
deriving DecidableEq, Repr

/-- The result of the check of section 4.2: `Legal | Illegal(reason)`. -/
inductive Legality where
  | legal
  | illegal (reason : Reason)
deriving DecidableEq, Repr

/-- Rule (1) of section 4.2: "either loop's bound expression references the
other loop's induction variable (non-rectangular nest)". -/
def boundsCrossReference (hA hB : LoopHeader) : Bool :=
  decide (hB.iv ∈ hA.lowerBound.operands) || decide (hB.iv ∈ hA.upperBound.operands) ||
    decide (hA.iv ∈ hB.lowerBound.operands) || decide (hA.iv ∈ hB.upperBound.operands)

/-- Modelled from the spec: the Permutability Checker of section 4.2 on the
adjacent pair made of the loop at slot i and the loop in its body, a component
absent from the file. Illegal "independent of dependence vectors" when a bound
of one loop references the induction variable of the other, rule (1), or when
either loop is marked ordering-sensitive, rule (2); otherwise the direction
rule decides on the edges the oracle reports for the sub-nest rooted at slot
i. -/
def checkPair (env : Collaborators) (i : Nat) (forOpA forOpB : Operation) : Legality :=
  match forOpA, forOpB with
  | .mk (.affineFor hA) _, .mk (.affineFor hB) _ =>
    if boundsCrossReference hA hB then Legality.illegal Reason.structural
    else if env.orderingSensitive forOpA || env.orderingSensitive forOpB then
      Legality.illegal Reason.structural
    else if check (env.edges forOpA) i = Verdict.illegal then
      Legality.illegal Reason.dependence
    else Legality.legal
  | _, _ => Legality.illegal Reason.structural

/-- The failure of the contract `apply(nest, i) → success | fails with
IllegalInterchange`. -/
inductive Failure where
  | illegalInterchange
deriving DecidableEq, Repr

/-- Modelled from the spec: the Interchange Transformer of section 4.3, on the
first loop taken as slot i of its nest and the second as slot i+1.
"Precondition: check(nest, i) must have returned Legal and the sub-nest must be
perfectly nested between i and i+1; violating either causes the operation to
refuse and fail, leaving the nest completely unmodified". Otherwise the two
headers are exchanged in place and "all other loops and statements are
untouched". -/
def apply (env : Collaborators) (forOpA forOpB : Operation) (f : FuncOp) :
    Except Failure FuncOp :=
  match exchangeHeaders forOpA forOpB with
  | none => .error Failure.illegalInterchange
  | some swapped =>
    match slotOfBlocks forOpA f 0 with
    | none => .error Failure.illegalInterchange
    | some i =>
      match checkPair env i forOpA forOpB with
      | Legality.legal => .ok (replaceFirstBlocks forOpA swapped f false).1
      | Legality.illegal _ => .error Failure.illegalInterchange

end Spec

/-- Modelled from the spec: the helper `interchangeLoops` called by
runOnFunction, declared in mlir/Transforms/LoopUtils.h; its body is not in the
file. It is the operation `apply` of section 4.3. runOnFunction drops the
result of the call, so what remains is the IR: the rewritten nest on success,
the nest as it was when the operation refused. -/
def interchangeLoops (env : Collaborators) (forOpA forOpB : Operation) (f : FuncOp) : FuncOp :=
  match Spec.apply env forOpA forOpB f with
  | .ok g => g
  | .error _ => f

/-- Whether the call runOnFunction issues on a function is carried out by the
helper instead of being refused. -/
def carriedOut (env : Collaborators) (f : FuncOp) : Bool :=
  match walkAffineForOps f with
  | forOpB :: forOpA :: _ =>
    match Spec.apply env forOpA forOpB f with
    | .ok _ => true
    | .error _ => false
  | _ => false

/-- A statement without regions. -/
def stmt (opcode : Nat) : Operation :=
  .mk (.other opcode) []

/-- A header over the constant range `[lb, ub)` with unit step. -/
def constHeader (iv : Nat) (lb ub : Int) : LoopHeader :=
  ⟨iv, ⟨[], lb⟩, ⟨[], ub⟩, 1⟩

/-- A loop over a constant range whose body is one block. -/
def constLoop (iv : Nat) (ub : Int) (body : Block) : Operation :=
  .mk (.affineFor (constHeader iv 0 ub)) [[body]]

/-- Two loops side by side in one block, neither nested in the other:
`for i in [0,4) { s } ; for j in [0,4) { s }`. -/
def siblingLoops : FuncOp :=
  [[constLoop 0 4 [stmt 1], constLoop 1 4 [stmt 2]]]

/-- A nest of depth three followed by a nest of depth two:
`for i { for j { for k { s } } } ; for p { for q { s } }`. -/
def twoNests : FuncOp :=
  [[constLoop 0 4 [constLoop 1 4 [constLoop 2 4 [stmt 1]]],
    constLoop 3 4 [constLoop 4 4 [stmt 2]]]]

/-- The body `A[i][j] = A[i][j-1] + 1`: a load, a constant, an addition and a
store. -/
def scenarioCBody : Block :=
  [stmt 10, stmt 11, stmt 12, stmt 13]

/-- The nest `for i in [0,N): for j in [0,M): A[i][j] = A[i][j-1] + 1`. -/
def scenarioC (N M : Int) : FuncOp :=
  loopNest2 (constHeader 0 0 N) (constHeader 1 0 M) scenarioCBody

/-- The header of `for j in [0, i)`: the upper bound is the induction variable
of the loop with the given identity. -/
def triangularHeader (iv outerIv : Nat) : LoopHeader :=
  ⟨iv, ⟨[], 0⟩, ⟨[outerIv], 0⟩, 1⟩

/-- The nest `for i in [0,8): for j in [0,i): s`. -/
def triangularNest : FuncOp :=
  loopNest2 (constHeader 0 0 8) (triangularHeader 1 0) [stmt 1]

/-- A single loop around one statement. -/
def singleLoop : FuncOp :=
  [[constLoop 0 4 [stmt 1]]]

/-- A perfectly nested chain of depth three between two statements:
`s ; for i { for j { for k { s } } } ; s`. -/
def chain3 : FuncOp :=
  [[stmt 1, constLoop 0 4 [constLoop 1 4 [constLoop 2 4 [stmt 2]]], stmt 3]]

/-- Collaborators that report no dependence edge and mark no loop. -/
def noDependences : Collaborators :=
  ⟨fun _ => [], fun _ => false⟩

/-- Two equal nests side by side:
`for i { for j { s } } ; for i { for j { s } }`. -/
def twinNests : FuncOp :=
  [[constLoop 0 4 [constLoop 1 4 [stmt 1]], constLoop 0 4 [constLoop 1 4 [stmt 1]]]]

/-! ## The gatherer records the innermost loops -/

open InnermostLoopGatherer

theorem filter_innermost_postOrderOp (k : OpKind) (rs : List Region) :
    (postOrderOp (.mk k rs)).filter isInnermostLoop =
      (postOrderRegions rs).filter isInnermostLoop ++
        (if isInnermostLoop (.mk k rs) then [.mk k rs] else []) := by
  simp [postOrderOp, List.filter_append, List.filter_cons]

mutual
theorem walkPostOrderOp_eq (o : Operation) (loops : List Operation) :
    walkPostOrderOp o loops =
      (hasLoopOp o, loops ++ (postOrderOp o).filter isInnermostLoop) := by
  match o with
  | .mk k rs =>
    have ih := walkPostOrderRegions_eq rs false loops
    cases k with
    | affineFor h =>
      rw [filter_innermost_postOrderOp]
      simp only [walkPostOrderOp, ih, hasLoopOp, isInnermostLoop, isAffineFor, Operation.regions,
        Bool.false_or, Bool.true_or, Bool.true_and]
      cases hasLoopRegions rs <;> simp
    | other n =>
      rw [filter_innermost_postOrderOp]
      simp [walkPostOrderOp, ih, hasLoopOp, isInnermostLoop, isAffineFor]
theorem walkPostOrderRegions_eq (rs : List (List (List Operation))) (acc : Bool)
    (loops : List Operation) :
    walkPostOrderRegions rs acc loops =
      (acc || hasLoopRegions rs, loops ++ (postOrderRegions rs).filter isInnermostLoop) := by
  match rs with
  | [] => simp [walkPostOrderRegions, hasLoopRegions, postOrderRegions]
  | r :: rs =>
    simp [walkPostOrderRegions, hasLoopRegions, postOrderRegions,
      walkPostOrderBlocks_eq r acc loops, walkPostOrderRegions_eq rs, Bool.or_assoc]
theorem walkPostOrderBlocks_eq (bs : List (List Operation)) (acc : Bool)
    (loops : List Operation) :
    walkPostOrderBlocks bs acc loops =
      (acc || hasLoopBlocks bs, loops ++ (postOrderBlocks bs).filter isInnermostLoop) := by
  match bs with
  | [] => simp [walkPostOrderBlocks, hasLoopBlocks, postOrderBlocks]
  | b :: bs =>
    simp [walkPostOrderBlocks, hasLoopBlocks, postOrderBlocks,
      walkPostOrderRange_eq b false loops, walkPostOrderBlocks_eq bs, Bool.or_assoc]
theorem walkPostOrderRange_eq (os : List Operation) (acc : Bool)
    (loops : List Operation) :
    walkPostOrderRange os acc loops =
      (acc || hasLoopOps os, loops ++ (postOrderOps os).filter isInnermostLoop) := by
  match os with
  | [] => simp [walkPostOrderRange, hasLoopOps, postOrderOps]
  | o :: os =>
    simp [walkPostOrderRange, hasLoopOps, postOrderOps,
      walkPostOrderOp_eq o loops, walkPostOrderRange_eq os, Bool.or_assoc]
end

theorem walkPostOrderFunc_eq (f : FuncOp) (loops : List Operation) :
    walkPostOrderFunc f loops = loops ++ (postOrderBlocks f).filter isInnermostLoop := by
  induction f generalizing loops with
  | nil => simp [walkPostOrderFunc, postOrderBlocks]
  | cons b bs ih =>
    simp [walkPostOrderFunc, postOrderBlocks, walkPostOrderRange_eq, ih]

mutual
theorem postOrderOp_filter_nil (o : Operation) (h : hasLoopOp o = false) :
    (postOrderOp o).filter isAffineFor = [] := by
  match o with
  | .mk (.affineFor hd) rs => simp [hasLoopOp] at h
  | .mk (.other n) rs =>
    simp only [hasLoopOp, Bool.false_or] at h
    simp [postOrderOp, isAffineFor, postOrderRegions_filter_nil rs h]
theorem postOrderRegions_filter_nil (rs : List (List (List Operation)))
    (h : hasLoopRegions rs = false) : (postOrderRegions rs).filter isAffineFor = [] := by
  match rs with
  | [] => simp [postOrderRegions]
  | r :: rs =>
    simp only [hasLoopRegions, Bool.or_eq_false_iff] at h
    simp [postOrderRegions, postOrderBlocks_filter_nil r h.1, postOrderRegions_filter_nil rs h.2]
theorem postOrderBlocks_filter_nil (bs : List (List Operation))
    (h : hasLoopBlocks bs = false) : (postOrderBlocks bs).filter isAffineFor = [] := by
  match bs with
  | [] => simp [postOrderBlocks]
  | b :: bs =>
    simp only [hasLoopBlocks, Bool.or_eq_false_iff] at h
    simp [postOrderBlocks, postOrderOps_filter_nil b h.1, postOrderBlocks_filter_nil bs h.2]
theorem postOrderOps_filter_nil (os : List Operation)
    (h : hasLoopOps os = false) : (postOrderOps os).filter isAffineFor = [] := by
  match os with
  | [] => simp [postOrderOps]
  | o :: os =>
    simp only [hasLoopOps, Bool.or_eq_false_iff] at h
    simp [postOrderOps, postOrderOp_filter_nil o h.1, postOrderOps_filter_nil os h.2]
end

theorem isInnermostLoop_imp_isAffineFor (op : Operation) (h : isInnermostLoop op = true) :
    isAffineFor op = true := by
  simp only [isInnermostLoop, Bool.and_eq_true] at h
  exact h.1

theorem filter_innermost_nil_of_filter_for_nil (l : List Operation)
    (h : l.filter isAffineFor = []) : l.filter isInnermostLoop = [] := by
  rw [List.filter_eq_nil_iff] at h ⊢
  intro a ha hin
  exact h a ha (isInnermostLoop_imp_isAffineFor a hin)

/-- C1: after walkPostOrder ran over a function body, the gathered list `loops`
is the list of the operations of the body, each taken once in post-order, that
are affine loops with no affine loop nested anywhere inside them; hence an
operation is recorded as often as it occurs in the body when it is such an
innermost loop and never otherwise, no loop containing another loop is
recorded, and a body without loops gives the empty list. -/
theorem gatherer_records_exactly_innermost_loops (f : FuncOp) :
    walkPostOrder f = (postOrderBlocks f).filter isInnermostLoop ∧
    (∀ op, (walkPostOrder f).count op =
      if isAffineFor op && !hasLoopRegions op.regions then (postOrderBlocks f).count op else 0) ∧
    (∀ op, op ∈ walkPostOrder f → hasLoopRegions op.regions = false) ∧
    (hasLoopBlocks f = false → walkPostOrder f = []) := by
  have key : walkPostOrder f = (postOrderBlocks f).filter isInnermostLoop := by
    simp [walkPostOrder, walkPostOrderFunc_eq]
  refine ⟨key, ?_, ?_, ?_⟩
  · intro op
    rw [key]
    by_cases hop : isInnermostLoop op = true
    · have hc : (isAffineFor op && !hasLoopRegions op.regions) = true := hop
      rw [if_pos hc, List.count_filter hop]
    · have hc : ¬ (isAffineFor op && !hasLoopRegions op.regions) = true := hop
      rw [if_neg hc]
      apply List.count_eq_zero_of_not_mem
      intro hm
      exact hop (List.mem_filter.mp hm).2
  · intro op hop
    rw [key, List.mem_filter] at hop
    have h2 := hop.2
    simp only [isInnermostLoop, Bool.and_eq_true, Bool.not_eq_true'] at h2
    exact h2.2
  · intro h
    rw [key]
    exact filter_innermost_nil_of_filter_for_nil _ (postOrderBlocks_filter_nil f h)

/-! ## What runOnFunction issues -/

theorem walkAffineForOps_length (f : FuncOp) :
    (walkAffineForOps f).length = (postOrderBlocks f).countP isAffineFor := by
  simp [walkAffineForOps, List.countP_eq_length_filter]

theorem runOnFunction_of_two (f : FuncOp) (a b : Operation) (rest : List Operation)
    (h : walkAffineForOps f = b :: a :: rest) :
    runOnFunction f = .ok [Effect.interchangeLoops a b] := by
  simp [runOnFunction, h, vectorAt]
  rfl

theorem runOnFunction_of_lt_two (f : FuncOp) (h : (walkAffineForOps f).length < 2) :
    runOnFunction f = .ok [] := by
  have : ¬ (walkAffineForOps f).length ≥ 2 := by omega
  simp only [runOnFunction, this, if_false]
  rfl

theorem walkAffineForOps_loopNest2 (outer inner : LoopHeader) (body : Block)
    (h : hasLoopOps body = false) :
    walkAffineForOps (loopNest2 outer inner body) =
      [.mk (.affineFor inner) [[body]],
       .mk (.affineFor outer) [[[.mk (.affineFor inner) [[body]]]]]] := by
  have hb := postOrderOps_filter_nil body h
  simp [walkAffineForOps, loopNest2, postOrderBlocks, postOrderOps, postOrderOp,
    postOrderRegions, List.filter_append, hb, isAffineFor]

theorem runOnFunction_loopNest2 (outer inner : LoopHeader) (body : Block)
    (h : hasLoopOps body = false) :
    runOnFunction (loopNest2 outer inner body) =
      .ok [Effect.interchangeLoops
        (.mk (.affineFor outer) [[[.mk (.affineFor inner) [[body]]]]])
        (.mk (.affineFor inner) [[body]])] :=
  runOnFunction_of_two _ _ _ [] (walkAffineForOps_loopNest2 outer inner body h)

/-- C2 (counterexample): on two loops that stand side by side, neither nested in
the other, runOnFunction calls interchangeLoops all the same. -/
theorem interchange_called_on_unnested_pair :
    runOnFunction siblingLoops =
      .ok [Effect.interchangeLoops (constLoop 1 4 [stmt 2]) (constLoop 0 4 [stmt 1])] ∧
    perfectlyNested (constLoop 1 4 [stmt 2]) (constLoop 0 4 [stmt 1]) = false ∧
    nestedIn (constLoop 0 4 [stmt 1]) (constLoop 1 4 [stmt 2]) = false ∧
    nestedIn (constLoop 1 4 [stmt 2]) (constLoop 0 4 [stmt 1]) = false := by
  decide

/-- C2 (amended): runOnFunction applies no legality or perfect-nesting test.
Whenever the walk collected at least two loops it calls
interchangeLoops(loops.at(1), loops.at(0)), whatever the relation between the
two loops. -/
theorem interchange_called_without_test (f : FuncOp) (a b : Operation)
    (rest : List Operation) (h : walkAffineForOps f = b :: a :: rest) :
    runOnFunction f = .ok [Effect.interchangeLoops a b] := by
  simp [runOnFunction, h, vectorAt]
  rfl

/-- C2 (witness): the amended statement at the two sibling loops. -/
theorem interchange_called_without_test_witness :
    walkAffineForOps siblingLoops = [constLoop 0 4 [stmt 1], constLoop 1 4 [stmt 2]] ∧
    runOnFunction siblingLoops =
      .ok [Effect.interchangeLoops (constLoop 1 4 [stmt 2]) (constLoop 0 4 [stmt 1])] :=
  ⟨by decide, interchange_called_without_test siblingLoops _ _ [] (by decide)⟩

/-- C4 (counterexample): the nest of scenario C, with N = M = 8, is
interchanged. -/
theorem scenarioC_interchanged :
    issuesInterchange (scenarioC 8 8) = true ∧
    runOnFunction (scenarioC 8 8) =
      .ok [Effect.interchangeLoops
        (.mk (.affineFor (constHeader 0 0 8))
          [[[.mk (.affineFor (constHeader 1 0 8)) [[scenarioCBody]]]]])
        (.mk (.affineFor (constHeader 1 0 8)) [[scenarioCBody]])] := by
  decide

/-- C4 (amended): for the nest `for i: for j: A[i][j] = A[i][j-1] + 1`, whatever
its bounds, runOnFunction makes no legality check and calls interchangeLoops on
the i loop and the j loop; and the direction rule of section 4.2, applied to
the single vector (equal, less), gives Legal. -/
theorem scenarioC_call_issued (N M : Int) :
    runOnFunction (scenarioC N M) =
      .ok [Effect.interchangeLoops
        (.mk (.affineFor (constHeader 0 0 N))
          [[[.mk (.affineFor (constHeader 1 0 M)) [[scenarioCBody]]]]])
        (.mk (.affineFor (constHeader 1 0 M)) [[scenarioCBody]])] ∧
    Spec.check [[Spec.Direction.equal, Spec.Direction.less]] 0 = Spec.Verdict.legal :=
  ⟨runOnFunction_loopNest2 _ _ _ (by decide), by decide⟩

/-- C7: on a function that holds fewer than two affine loops, runOnFunction
returns normally (no out-of-range access of `loops`), issues no interchange, and
so leaves the IR as it found it, whatever interchangeLoops would do. -/
theorem fewer_than_two_loops_untouched (f : FuncOp)
    (h : (postOrderBlocks f).countP isAffineFor < 2) :
    runOnFunction f = .ok [] ∧
    issuesInterchange f = false ∧
    ∀ impl : Operation → Operation → FuncOp → FuncOp, runPass impl f = .ok f := by
  rw [← walkAffineForOps_length] at h
  have hr := runOnFunction_of_lt_two f h
  refine ⟨hr, by simp [issuesInterchange, hr], ?_⟩
  intro impl
  simp [runPass, hr, applyEffects]

/-- C7 (witness): a function with a single loop. -/
theorem fewer_than_two_loops_untouched_witness :
    (postOrderBlocks singleLoop).countP isAffineFor < 2 ∧
    runOnFunction singleLoop = .ok [] ∧
    issuesInterchange singleLoop = false ∧
    ∀ impl : Operation → Operation → FuncOp → FuncOp, runPass impl singleLoop = .ok singleLoop :=
  ⟨by decide, fewer_than_two_loops_untouched singleLoop (by decide)⟩

/-- C8 (counterexample): a function with a nest of depth three and a nest of
depth two gets a single call, on the two innermost loops of the first nest;
the outermost pair of the first nest and the whole second nest are not
attempted. -/
theorem second_nest_not_attempted :
    runOnFunction twoNests =
      .ok [Effect.interchangeLoops (constLoop 1 4 [constLoop 2 4 [stmt 1]])
        (constLoop 2 4 [stmt 1])] ∧
    perfectlyNested (constLoop 0 4 [constLoop 1 4 [constLoop 2 4 [stmt 1]]])
      (constLoop 1 4 [constLoop 2 4 [stmt 1]]) = true ∧
    constLoop 3 4 [constLoop 4 4 [stmt 2]] ∈ postOrderBlocks twoNests ∧
    perfectlyNested (constLoop 3 4 [constLoop 4 4 [stmt 2]]) (constLoop 4 4 [stmt 2]) = true := by
  decide

/-- C8 (amended): on every function body the pass makes at most one interchange
attempt, however many nests there are: none when fewer than two loops were
collected, otherwise exactly one, on loops.at(1) and loops.at(0) of the
post-order list of loops. -/
theorem at_most_one_attempt (f : FuncOp) :
    ∃ effects, runOnFunction f = .ok effects ∧ effects.length ≤ 1 ∧
      (effects.length = 1 ↔ 2 ≤ (postOrderBlocks f).countP isAffineFor) ∧
      ∀ a b, Effect.interchangeLoops a b ∈ effects →
        (walkAffineForOps f)[1]? = some a ∧ (walkAffineForOps f)[0]? = some b := by
  rw [← walkAffineForOps_length]
  by_cases h : 2 ≤ (walkAffineForOps f).length
  · match hw : walkAffineForOps f with
    | [] => simp [hw] at h
    | [_] => simp [hw] at h
    | b :: a :: rest =>
      refine ⟨_, runOnFunction_of_two f a b rest hw, by simp, by simp, ?_⟩
      intro a1 b1 hm
      simp only [List.mem_singleton, Effect.interchangeLoops.injEq] at hm
      simp [hm.1, hm.2]
  · have hlt : (walkAffineForOps f).length < 2 := by omega
    exact ⟨_, runOnFunction_of_lt_two f hlt, by simp, by simp [h], by simp⟩

/-- C9: runOnAffineForOp returns success on every loop and leaves the loop as it
was. -/
theorem runOnAffineForOp_success_without_change (forOp : Operation) :
    runOnAffineForOp forOp = (LogicalResult.success, forOp) :=
  rfl


/-! ## Perfectly nested chains -/

theorem isAffineFor_of_chain (d : Nat) (o : Operation) (h : isPerfectChain (d + 1) o = true) :
    isAffineFor o = true := by
  cases d with
  | zero =>
    simp only [isPerfectChain] at h
    exact isInnermostLoop_imp_isAffineFor o h
  | succ d =>
    match o, h with
    | .mk (.affineFor hd) rs, _ => rfl
    | .mk (.other n) rs, h => simp [isPerfectChain] at h

theorem chain_succ_shape (d : Nat) (o : Operation) (h : isPerfectChain (d + 2) o = true) :
    ∃ hd child, o = .mk (.affineFor hd) [[[child]]] ∧ isPerfectChain (d + 1) child = true := by
  match o, h with
  | .mk (.affineFor hd) [[[child]]], h => exact ⟨hd, child, rfl, by simpa [isPerfectChain] using h⟩

theorem innermost_shape (o : Operation) (h : isInnermostLoop o = true) :
    ∃ hd rs, o = .mk (.affineFor hd) rs ∧ hasLoopRegions rs = false := by
  match o, h with
  | .mk (.affineFor hd) rs, h =>
    refine ⟨hd, rs, rfl, ?_⟩
    simpa [isInnermostLoop, isAffineFor, Operation.regions] using h
  | .mk (.other n) rs, h => simp [isInnermostLoop, isAffineFor] at h

theorem hasLoopOp_of_isAffineFor (o : Operation) (h : isAffineFor o = true) :
    hasLoopOp o = true := by
  match o, h with
  | .mk (.affineFor hd) rs, _ => simp [hasLoopOp]

theorem chain_depth_unique (m : Nat) : ∀ (n : Nat) (o : Operation),
    isPerfectChain m o = true → isPerfectChain n o = true → m = n := by
  induction m using Nat.strong_induction_on with
  | _ m ih =>
    intro n o hm hn
    match m, n, hm, hn with
    | 0, _, hm, _ => simp [isPerfectChain] at hm
    | _ + 1, 0, _, hn => simp [isPerfectChain] at hn
    | 1, 1, _, _ => rfl
    | 1, n + 2, hm, hn =>
      exfalso
      obtain ⟨hd, child, rfl, hc⟩ := chain_succ_shape n o hn
      have hl := hasLoopOp_of_isAffineFor child (isAffineFor_of_chain n child hc)
      simp [isPerfectChain, isInnermostLoop, isAffineFor, Operation.regions, hasLoopRegions,
        hasLoopBlocks, hasLoopOps, hl] at hm
    | m + 2, 1, hm, hn =>
      exfalso
      obtain ⟨hd, child, rfl, hc⟩ := chain_succ_shape m o hm
      have hl := hasLoopOp_of_isAffineFor child (isAffineFor_of_chain m child hc)
      simp [isPerfectChain, isInnermostLoop, isAffineFor, Operation.regions, hasLoopRegions,
        hasLoopBlocks, hasLoopOps, hl] at hn
    | m + 2, n + 2, hm, hn =>
      obtain ⟨hd, child, rfl, hc⟩ := chain_succ_shape m o hm
      have hc2 : isPerfectChain (n + 1) child = true := by simpa [isPerfectChain] using hn
      have := ih (m + 1) (by omega) (n + 1) child hc hc2
      omega

theorem filter_for_postOrderOp (k : OpKind) (rs : List Region) :
    (postOrderOp (.mk k rs)).filter isAffineFor =
      (postOrderRegions rs).filter isAffineFor ++
        (if isAffineFor (.mk k rs) then [.mk k rs] else []) := by
  simp [postOrderOp, List.filter_append, List.filter_cons]

theorem filter_for_single_child (hd : LoopHeader) (child : Operation) :
    (postOrderOp (.mk (.affineFor hd) [[[child]]])).filter isAffineFor =
      (postOrderOp child).filter isAffineFor ++ [.mk (.affineFor hd) [[[child]]]] := by
  simp [filter_for_postOrderOp, postOrderRegions, postOrderBlocks, postOrderOps, isAffineFor]

theorem replaceFirstOp_self (old new : Operation) :
    replaceFirstOp old new old false = (new, true) := by
  match old with
  | .mk k rs => simp [replaceFirstOp]

theorem replaceFirstOp_single_child (old new : Operation) (hd : LoopHeader)
    (child : Operation) (hne : Operation.mk (.affineFor hd) [[[child]]] ≠ old) :
    replaceFirstOp old new (.mk (.affineFor hd) [[[child]]]) false =
      (.mk (.affineFor hd) [[[(replaceFirstOp old new child false).1]]],
        (replaceFirstOp old new child false).2) := by
  simp [replaceFirstOp, hne, replaceFirstRegions, replaceFirstBlocks, replaceFirstOps]

/-- Exchanging the two innermost headers of a chain, and exchanging them back. -/
theorem chain_swap (d : Nat) : ∀ c, isPerfectChain (d + 2) c = true →
    ∃ a b a' b' rest rest' c',
      (postOrderOp c).filter isAffineFor = b :: a :: rest ∧
      rest.length = d ∧
      isInnermostLoop b = true ∧ perfectlyNested a b = true ∧
      isPerfectChain 2 a = true ∧ isPerfectChain 2 a' = true ∧
      exchangeHeaders a b = some a' ∧ exchangeHeaders a' b' = some a ∧
      replaceFirstOp a a' c false = (c', true) ∧
      isPerfectChain (d + 2) c' = true ∧
      (postOrderOp c').filter isAffineFor = b' :: a' :: rest' ∧
      replaceFirstOp a' a c' false = (c, true) ∧
      b'.kind = a.kind ∧ a'.kind = b.kind ∧
      rest'.map Operation.kind = rest.map Operation.kind := by
  induction d with
  | zero =>
    intro c hc
    obtain ⟨hA, child, rfl, hchild⟩ := chain_succ_shape 0 c hc
    simp only [isPerfectChain] at hchild
    obtain ⟨hB, rsB, rfl, hfree⟩ := innermost_shape child hchild
    have hnil := postOrderRegions_filter_nil rsB hfree
    refine ⟨.mk (.affineFor hA) [[[.mk (.affineFor hB) rsB]]], .mk (.affineFor hB) rsB,
      .mk (.affineFor hB) [[[.mk (.affineFor hA) rsB]]], .mk (.affineFor hA) rsB, [], [],
      .mk (.affineFor hB) [[[.mk (.affineFor hA) rsB]]],
      ?_, rfl, hchild, ?_, hc, ?_, ?_, ?_, ?_, ?_, ?_, ?_, rfl, rfl, rfl⟩
    · rw [filter_for_single_child, filter_for_postOrderOp, hnil]
      simp [isAffineFor]
    · simp [perfectlyNested, isAffineFor, Operation.regions]
    · simp [isPerfectChain, isInnermostLoop, isAffineFor, Operation.regions, hfree]
    · simp [exchangeHeaders]
    · simp [exchangeHeaders]
    · rw [replaceFirstOp_self]
    · simp [isPerfectChain, isInnermostLoop, isAffineFor, Operation.regions, hfree]
    · rw [filter_for_single_child, filter_for_postOrderOp, hnil]
      simp [isAffineFor]
    · rw [replaceFirstOp_self]
  | succ d ih =>
    intro c hc
    obtain ⟨hd, child, rfl, hchild⟩ := chain_succ_shape (d + 1) c hc
    obtain ⟨a, b, a', b', rest, rest', child', hw, hlen, hb, hpn, ha2, ha2', hx, hx', hfwd,
      hch', hw', hback, hkb, hka, hkr⟩ := ih child hchild
    have hne : Operation.mk (.affineFor hd) [[[child]]] ≠ a := by
      intro e
      rw [← e] at ha2
      have := chain_depth_unique _ _ _ hc ha2
      omega
    have h3 : isPerfectChain (d + 1 + 2) (.mk (.affineFor hd) [[[child']]]) = true := by
      simpa [isPerfectChain] using hch'
    have hne' : Operation.mk (.affineFor hd) [[[child']]] ≠ a' := by
      intro e
      rw [← e] at ha2'
      have := chain_depth_unique _ _ _ h3 ha2'
      omega
    refine ⟨a, b, a', b', rest ++ [.mk (.affineFor hd) [[[child]]]],
      rest' ++ [.mk (.affineFor hd) [[[child']]]], .mk (.affineFor hd) [[[child']]],
      ?_, ?_, hb, hpn, ha2, ha2', hx, hx', ?_, h3, ?_, ?_, hkb, hka, ?_⟩
    · rw [filter_for_single_child, hw]; rfl
    · simp [hlen]
    · rw [replaceFirstOp_single_child _ _ _ _ hne, hfwd]
    · rw [filter_for_single_child, hw']; rfl
    · rw [replaceFirstOp_single_child _ _ _ _ hne', hback]
    · simp [hkr, Operation.kind]

/-! ## Outermost loops and substitution -/

theorem outerLoopsOp_of_isAffineFor (o : Operation) (h : isAffineFor o = true) :
    outerLoopsOp o = [o] := by
  match o, h with
  | .mk (.affineFor hd) rs, _ => simp [outerLoopsOp]

theorem mapOuterOp_of_isAffineFor (g : Operation → Operation) (o : Operation)
    (h : isAffineFor o = true) : mapOuterOp g o = g o := by
  match o, h with
  | .mk (.affineFor hd) rs, _ => simp [mapOuterOp]

mutual
theorem loops_by_nest_op (o : Operation) :
    (postOrderOp o).filter isAffineFor =
      (outerLoopsOp o).flatMap (fun c => (postOrderOp c).filter isAffineFor) := by
  match o with
  | .mk (.affineFor hd) rs => simp [outerLoopsOp]
  | .mk (.other n) rs =>
    rw [filter_for_postOrderOp, loops_by_nest_regions rs]
    simp [outerLoopsOp, isAffineFor]
theorem loops_by_nest_regions (rs : List (List (List Operation))) :
    (postOrderRegions rs).filter isAffineFor =
      (outerLoopsRegions rs).flatMap (fun c => (postOrderOp c).filter isAffineFor) := by
  match rs with
  | [] => simp [postOrderRegions, outerLoopsRegions]
  | r :: rs =>
    simp [postOrderRegions, outerLoopsRegions, List.filter_append, loops_by_nest_blocks r,
      loops_by_nest_regions rs]
theorem loops_by_nest_blocks (bs : List (List Operation)) :
    (postOrderBlocks bs).filter isAffineFor =
      (outerLoopsBlocks bs).flatMap (fun c => (postOrderOp c).filter isAffineFor) := by
  match bs with
  | [] => simp [postOrderBlocks, outerLoopsBlocks]
  | b :: bs =>
    simp [postOrderBlocks, outerLoopsBlocks, List.filter_append, loops_by_nest_ops b,
      loops_by_nest_blocks bs]
theorem loops_by_nest_ops (os : List Operation) :
    (postOrderOps os).filter isAffineFor =
      (outerLoopsOps os).flatMap (fun c => (postOrderOp c).filter isAffineFor) := by
  match os with
  | [] => simp [postOrderOps, outerLoopsOps]
  | o :: os =>
    simp [postOrderOps, outerLoopsOps, List.filter_append, loops_by_nest_op o,
      loops_by_nest_ops os]
end

mutual
theorem outerLoops_mapOuterOp (g : Operation → Operation) (o : Operation)
    (h : ∀ c ∈ outerLoopsOp o, isAffineFor (g c) = true) :
    outerLoopsOp (mapOuterOp g o) = (outerLoopsOp o).map g := by
  match o with
  | .mk (.affineFor hd) rs =>
    have := h (.mk (.affineFor hd) rs) (by simp [outerLoopsOp])
    simp [mapOuterOp, outerLoopsOp, outerLoopsOp_of_isAffineFor _ this]
  | .mk (.other n) rs =>
    have := outerLoops_mapOuterRegions g rs (fun c hc => h c (by simpa [outerLoopsOp] using hc))
    simp [mapOuterOp, outerLoopsOp, this]
theorem outerLoops_mapOuterRegions (g : Operation → Operation)
    (rs : List (List (List Operation)))
    (h : ∀ c ∈ outerLoopsRegions rs, isAffineFor (g c) = true) :
    outerLoopsRegions (mapOuterRegions g rs) = (outerLoopsRegions rs).map g := by
  match rs with
  | [] => simp [mapOuterRegions, outerLoopsRegions]
  | r :: rs =>
    have h1 := outerLoops_mapOuterBlocks g r
      (fun c hc => h c (by simp [outerLoopsRegions, hc]))
    have h2 := outerLoops_mapOuterRegions g rs
      (fun c hc => h c (by simp [outerLoopsRegions, hc]))
    simp [mapOuterRegions, outerLoopsRegions, h1, h2]
theorem outerLoops_mapOuterBlocks (g : Operation → Operation)
    (bs : List (List Operation))
    (h : ∀ c ∈ outerLoopsBlocks bs, isAffineFor (g c) = true) :
    outerLoopsBlocks (mapOuterBlocks g bs) = (outerLoopsBlocks bs).map g := by
  match bs with
  | [] => simp [mapOuterBlocks, outerLoopsBlocks]
  | b :: bs =>
    have h1 := outerLoops_mapOuterOps g b
      (fun c hc => h c (by simp [outerLoopsBlocks, hc]))
    have h2 := outerLoops_mapOuterBlocks g bs
      (fun c hc => h c (by simp [outerLoopsBlocks, hc]))
    simp [mapOuterBlocks, outerLoopsBlocks, h1, h2]
theorem outerLoops_mapOuterOps (g : Operation → Operation)
    (os : List Operation)
    (h : ∀ c ∈ outerLoopsOps os, isAffineFor (g c) = true) :
    outerLoopsOps (mapOuterOps g os) = (outerLoopsOps os).map g := by
  match os with
  | [] => simp [mapOuterOps, outerLoopsOps]
  | o :: os =>
    have h1 := outerLoops_mapOuterOp g o
      (fun c hc => h c (by simp [outerLoopsOps, hc]))
    have h2 := outerLoops_mapOuterOps g os
      (fun c hc => h c (by simp [outerLoopsOps, hc]))
    simp [mapOuterOps, outerLoopsOps, h1, h2]
end

mutual
theorem mapOuterOp_inverse (g1 g2 : Operation → Operation) (o : Operation)
    (h : ∀ c ∈ outerLoopsOp o, g2 (g1 c) = c ∧ isAffineFor (g1 c) = true) :
    mapOuterOp g2 (mapOuterOp g1 o) = o := by
  match o with
  | .mk (.affineFor hd) rs =>
    have := h (.mk (.affineFor hd) rs) (by simp [outerLoopsOp])
    rw [mapOuterOp, mapOuterOp_of_isAffineFor _ _ this.2, this.1]
  | .mk (.other n) rs =>
    have := mapOuterRegions_inverse g1 g2 rs (fun c hc => h c (by simpa [outerLoopsOp] using hc))
    simp [mapOuterOp, this]
theorem mapOuterRegions_inverse (g1 g2 : Operation → Operation)
    (rs : List (List (List Operation)))
    (h : ∀ c ∈ outerLoopsRegions rs, g2 (g1 c) = c ∧ isAffineFor (g1 c) = true) :
    mapOuterRegions g2 (mapOuterRegions g1 rs) = rs := by
  match rs with
  | [] => simp [mapOuterRegions]
  | r :: rs =>
    have h1 := mapOuterBlocks_inverse g1 g2 r
      (fun c hc => h c (by simp [outerLoopsRegions, hc]))
    have h2 := mapOuterRegions_inverse g1 g2 rs
      (fun c hc => h c (by simp [outerLoopsRegions, hc]))
    simp [mapOuterRegions, h1, h2]
theorem mapOuterBlocks_inverse (g1 g2 : Operation → Operation)
    (bs : List (List Operation))
    (h : ∀ c ∈ outerLoopsBlocks bs, g2 (g1 c) = c ∧ isAffineFor (g1 c) = true) :
    mapOuterBlocks g2 (mapOuterBlocks g1 bs) = bs := by
  match bs with
  | [] => simp [mapOuterBlocks]
  | b :: bs =>
    have h1 := mapOuterOps_inverse g1 g2 b
      (fun c hc => h c (by simp [outerLoopsBlocks, hc]))
    have h2 := mapOuterBlocks_inverse g1 g2 bs
      (fun c hc => h c (by simp [outerLoopsBlocks, hc]))
    simp [mapOuterBlocks, h1, h2]
theorem mapOuterOps_inverse (g1 g2 : Operation → Operation)
    (os : List Operation)
    (h : ∀ c ∈ outerLoopsOps os, g2 (g1 c) = c ∧ isAffineFor (g1 c) = true) :
    mapOuterOps g2 (mapOuterOps g1 os) = os := by
  match os with
  | [] => simp [mapOuterOps]
  | o :: os =>
    have h1 := mapOuterOp_inverse g1 g2 o
      (fun c hc => h c (by simp [outerLoopsOps, hc]))
    have h2 := mapOuterOps_inverse g1 g2 os
      (fun c hc => h c (by simp [outerLoopsOps, hc]))
    simp [mapOuterOps, h1, h2]
end

theorem append_eq_singleton_cases {α : Type} (l1 l2 : List α) (c : α)
    (h : l1 ++ l2 = [c]) : (l1 = [c] ∧ l2 = []) ∨ (l1 = [] ∧ l2 = [c]) := by
  cases l1 with
  | nil => exact Or.inr ⟨rfl, by simpa using h⟩
  | cons x xs =>
    simp only [List.cons_append, List.cons.injEq, List.append_eq_nil] at h
    exact Or.inl ⟨by rw [h.1, h.2.1], h.2.2⟩

mutual
theorem replaceFirstOp_done (old new : Operation) (o : Operation) :
    replaceFirstOp old new o true = (o, true) := by
  match o with
  | .mk k rs => simp [replaceFirstOp]
theorem replaceFirstRegions_done (old new : Operation) (rs : List (List (List Operation))) :
    replaceFirstRegions old new rs true = (rs, true) := by
  match rs with
  | [] => simp [replaceFirstRegions]
  | r :: rs =>
    simp [replaceFirstRegions, replaceFirstBlocks_done old new r,
      replaceFirstRegions_done old new rs]
theorem replaceFirstBlocks_done (old new : Operation) (bs : List (List Operation)) :
    replaceFirstBlocks old new bs true = (bs, true) := by
  match bs with
  | [] => simp [replaceFirstBlocks]
  | b :: bs =>
    simp [replaceFirstBlocks, replaceFirstOps_done old new b,
      replaceFirstBlocks_done old new bs]
theorem replaceFirstOps_done (old new : Operation) (os : List Operation) :
    replaceFirstOps old new os true = (os, true) := by
  match os with
  | [] => simp [replaceFirstOps]
  | o :: os =>
    simp [replaceFirstOps, replaceFirstOp_done old new o, replaceFirstOps_done old new os]
end

mutual
theorem replaceFirstOp_no_loop (old new : Operation) (hold : isAffineFor old = true)
    (o : Operation) (h : outerLoopsOp o = []) :
    replaceFirstOp old new o false = (o, false) := by
  match o with
  | .mk (.affineFor hd) rs => simp [outerLoopsOp] at h
  | .mk (.other n) rs =>
    have hne : Operation.mk (.other n) rs ≠ old := by
      intro e
      rw [← e] at hold
      simp [isAffineFor] at hold
    simp only [outerLoopsOp] at h
    simp [replaceFirstOp, hne, replaceFirstRegions_no_loop old new hold rs h]
theorem replaceFirstRegions_no_loop (old new : Operation) (hold : isAffineFor old = true)
    (rs : List (List (List Operation))) (h : outerLoopsRegions rs = []) :
    replaceFirstRegions old new rs false = (rs, false) := by
  match rs with
  | [] => simp [replaceFirstRegions]
  | r :: rs =>
    simp only [outerLoopsRegions, List.append_eq_nil] at h
    simp [replaceFirstRegions, replaceFirstBlocks_no_loop old new hold r h.1,
      replaceFirstRegions_no_loop old new hold rs h.2]
theorem replaceFirstBlocks_no_loop (old new : Operation) (hold : isAffineFor old = true)
    (bs : List (List Operation)) (h : outerLoopsBlocks bs = []) :
    replaceFirstBlocks old new bs false = (bs, false) := by
  match bs with
  | [] => simp [replaceFirstBlocks]
  | b :: bs =>
    simp only [outerLoopsBlocks, List.append_eq_nil] at h
    simp [replaceFirstBlocks, replaceFirstOps_no_loop old new hold b h.1,
      replaceFirstBlocks_no_loop old new hold bs h.2]
theorem replaceFirstOps_no_loop (old new : Operation) (hold : isAffineFor old = true)
    (os : List Operation) (h : outerLoopsOps os = []) :
    replaceFirstOps old new os false = (os, false) := by
  match os with
  | [] => simp [replaceFirstOps]
  | o :: os =>
    simp only [outerLoopsOps, List.append_eq_nil] at h
    simp [replaceFirstOps, replaceFirstOp_no_loop old new hold o h.1,
      replaceFirstOps_no_loop old new hold os h.2]
end

mutual
theorem mapOuterOp_no_loop (g : Operation → Operation) (o : Operation)
    (h : outerLoopsOp o = []) : mapOuterOp g o = o := by
  match o with
  | .mk (.affineFor hd) rs => simp [outerLoopsOp] at h
  | .mk (.other n) rs =>
    simp only [outerLoopsOp] at h
    simp [mapOuterOp, mapOuterRegions_no_loop g rs h]
theorem mapOuterRegions_no_loop (g : Operation → Operation)
    (rs : List (List (List Operation))) (h : outerLoopsRegions rs = []) :
    mapOuterRegions g rs = rs := by
  match rs with
  | [] => simp [mapOuterRegions]
  | r :: rs =>
    simp only [outerLoopsRegions, List.append_eq_nil] at h
    simp [mapOuterRegions, mapOuterBlocks_no_loop g r h.1, mapOuterRegions_no_loop g rs h.2]
theorem mapOuterBlocks_no_loop (g : Operation → Operation)
    (bs : List (List Operation)) (h : outerLoopsBlocks bs = []) :
    mapOuterBlocks g bs = bs := by
  match bs with
  | [] => simp [mapOuterBlocks]
  | b :: bs =>
    simp only [outerLoopsBlocks, List.append_eq_nil] at h
    simp [mapOuterBlocks, mapOuterOps_no_loop g b h.1, mapOuterBlocks_no_loop g bs h.2]
theorem mapOuterOps_no_loop (g : Operation → Operation)
    (os : List Operation) (h : outerLoopsOps os = []) :
    mapOuterOps g os = os := by
  match os with
  | [] => simp [mapOuterOps]
  | o :: os =>
    simp only [outerLoopsOps, List.append_eq_nil] at h
    simp [mapOuterOps, mapOuterOp_no_loop g o h.1, mapOuterOps_no_loop g os h.2]
end

mutual
theorem replaceFirstOp_one_nest (old new c : Operation) (hold : isAffineFor old = true)
    (hc : (replaceFirstOp old new c false).2 = true)
    (o : Operation) (h : outerLoopsOp o = [c]) :
    replaceFirstOp old new o false =
      (mapOuterOp (fun x => (replaceFirstOp old new x false).1) o, true) := by
  match o with
  | .mk (.affineFor hd) rs =>
    simp only [outerLoopsOp, List.cons.injEq, and_true] at h
    rw [mapOuterOp, h, ← hc]
  | .mk (.other n) rs =>
    have hne : Operation.mk (.other n) rs ≠ old := by
      intro e
      rw [← e] at hold
      simp [isAffineFor] at hold
    simp only [outerLoopsOp] at h
    simp [replaceFirstOp, hne, mapOuterOp,
      replaceFirstRegions_one_nest old new c hold hc rs h]
theorem replaceFirstRegions_one_nest (old new c : Operation) (hold : isAffineFor old = true)
    (hc : (replaceFirstOp old new c false).2 = true)
    (rs : List (List (List Operation))) (h : outerLoopsRegions rs = [c]) :
    replaceFirstRegions old new rs false =
      (mapOuterRegions (fun x => (replaceFirstOp old new x false).1) rs, true) := by
  match rs with
  | [] => simp [outerLoopsRegions] at h
  | r :: rs =>
    simp only [outerLoopsRegions] at h
    rcases append_eq_singleton_cases _ _ _ h with ⟨h1, h2⟩ | ⟨h1, h2⟩
    · simp [replaceFirstRegions, mapOuterRegions,
        replaceFirstBlocks_one_nest old new c hold hc r h1,
        replaceFirstRegions_done, mapOuterRegions_no_loop _ rs h2]
    · simp [replaceFirstRegions, mapOuterRegions,
        replaceFirstBlocks_no_loop old new hold r h1, mapOuterBlocks_no_loop _ r h1,
        replaceFirstRegions_one_nest old new c hold hc rs h2]
theorem replaceFirstBlocks_one_nest (old new c : Operation) (hold : isAffineFor old = true)
    (hc : (replaceFirstOp old new c false).2 = true)
    (bs : List (List Operation)) (h : outerLoopsBlocks bs = [c]) :
    replaceFirstBlocks old new bs false =
      (mapOuterBlocks (fun x => (replaceFirstOp old new x false).1) bs, true) := by
  match bs with
  | [] => simp [outerLoopsBlocks] at h
  | b :: bs =>
    simp only [outerLoopsBlocks] at h
    rcases append_eq_singleton_cases _ _ _ h with ⟨h1, h2⟩ | ⟨h1, h2⟩
    · simp [replaceFirstBlocks, mapOuterBlocks,
        replaceFirstOps_one_nest old new c hold hc b h1,
        replaceFirstBlocks_done, mapOuterBlocks_no_loop _ bs h2]
    · simp [replaceFirstBlocks, mapOuterBlocks,
        replaceFirstOps_no_loop old new hold b h1, mapOuterOps_no_loop _ b h1,
        replaceFirstBlocks_one_nest old new c hold hc bs h2]
theorem replaceFirstOps_one_nest (old new c : Operation) (hold : isAffineFor old = true)
    (hc : (replaceFirstOp old new c false).2 = true)
    (os : List Operation) (h : outerLoopsOps os = [c]) :
    replaceFirstOps old new os false =
      (mapOuterOps (fun x => (replaceFirstOp old new x false).1) os, true) := by
  match os with
  | [] => simp [outerLoopsOps] at h
  | o :: os =>
    simp only [outerLoopsOps] at h
    rcases append_eq_singleton_cases _ _ _ h with ⟨h1, h2⟩ | ⟨h1, h2⟩
    · simp [replaceFirstOps, mapOuterOps,
        replaceFirstOp_one_nest old new c hold hc o h1,
        replaceFirstOps_done, mapOuterOps_no_loop _ os h2]
    · simp [replaceFirstOps, mapOuterOps,
        replaceFirstOp_no_loop old new hold o h1, mapOuterOp_no_loop _ o h1,
        replaceFirstOps_one_nest old new c hold hc os h2]
end

/-! ## Functions whose loops form one chain -/

theorem one_chain_shape (d : Nat) (f : FuncOp) (h : loopsFormOneChain d f = true) :
    ∃ c, outerLoopsBlocks f = [c] ∧ isPerfectChain d c = true := by
  unfold loopsFormOneChain at h
  split at h
  · next c hc => exact ⟨c, hc, h⟩
  · simp at h

theorem walkAffineForOps_of_one_nest (f : FuncOp) (c : Operation)
    (h : outerLoopsBlocks f = [c]) :
    walkAffineForOps f = (postOrderOp c).filter isAffineFor := by
  simp [walkAffineForOps, loops_by_nest_blocks f, h]

theorem interchangeLoops_eq (env : Collaborators) (a b a' : Operation) (f : FuncOp)
    (hx : exchangeHeaders a b = some a') :
    interchangeLoops env a b f =
      if (match Spec.apply env a b f with
          | .ok _ => true
          | .error _ => false) = true
      then (replaceFirstBlocks a a' f false).1 else f := by
  simp only [interchangeLoops, Spec.apply, hx]
  cases hs : slotOfBlocks a f 0 with
  | none => simp
  | some i =>
    cases hv : Spec.checkPair env i a b with
    | legal => simp [hv]
    | illegal r => simp [hv]

theorem runPass_one_call (env : Collaborators) (f : FuncOp) (a b a' : Operation)
    (rest : List Operation) (hw : walkAffineForOps f = b :: a :: rest)
    (hx : exchangeHeaders a b = some a') :
    runPass (interchangeLoops env) f =
      .ok (if carriedOut env f = true then (replaceFirstBlocks a a' f false).1 else f) := by
  simp only [runPass, runOnFunction_of_two f a b rest hw, applyEffects,
    interchangeLoops_eq env a b a' f hx, carriedOut, hw]

theorem reverse_slots {α : Type} (a b : α) (rest : List α) :
    (b :: a :: rest).reverse[rest.length]? = some a ∧
    (b :: a :: rest).reverse[rest.length + 1]? = some b := by
  have e : (b :: a :: rest).reverse = rest.reverse ++ [a, b] := by simp
  rw [e]
  constructor
  · rw [List.getElem?_append_right (by simp)]
    simp
  · rw [List.getElem?_append_right (by simp)]
    simp

/-- C10: with the walk taken in post-order, on every function whose loops form a
single perfectly nested chain of depth d + 2 the collected list has the
innermost loop at index 0 and its parent at index 1 (d loops follow, so
counted from the outermost loop these are slots d and d + 1, the two innermost
levels), the one call is interchangeLoops(parent, child) with the child the whole
body of the parent; and on the two sibling loops, which form no chain,
loops.at(0) is not nested in loops.at(1). -/
theorem chain_interchanges_two_innermost :
    (∀ (d : Nat) (f : FuncOp), loopsFormOneChain (d + 2) f = true →
      ∃ parent child rest,
        walkAffineForOps f = child :: parent :: rest ∧
        rest.length = d ∧
        (walkAffineForOps f).reverse[d]? = some parent ∧
        (walkAffineForOps f).reverse[d + 1]? = some child ∧
        isInnermostLoop child = true ∧
        perfectlyNested parent child = true ∧
        runOnFunction f = .ok [Effect.interchangeLoops parent child]) ∧
    (∃ (f : FuncOp) (a b : Operation) (rest : List Operation),
      (∀ d, loopsFormOneChain d f = false) ∧
      walkAffineForOps f = b :: a :: rest ∧
      runOnFunction f = .ok [Effect.interchangeLoops a b] ∧
      nestedIn b a = false) := by
  constructor
  · intro d f h
    obtain ⟨c, hc, hchain⟩ := one_chain_shape _ f h
    obtain ⟨a, b, a', b', rest, rest', c', hw, hlen, hb, hpn, -⟩ := chain_swap d c hchain
    have hwf : walkAffineForOps f = b :: a :: rest := by
      rw [walkAffineForOps_of_one_nest f c hc, hw]
    refine ⟨a, b, rest, hwf, hlen, ?_, ?_, hb, hpn, runOnFunction_of_two f a b rest hwf⟩
    · rw [hwf, ← hlen]
      exact (reverse_slots a b rest).1
    · rw [hwf, ← hlen]
      exact (reverse_slots a b rest).2
  · refine ⟨siblingLoops, constLoop 1 4 [stmt 2], constLoop 0 4 [stmt 1], [], ?_, by decide,
      by decide, by decide⟩
    intro d
    have h : outerLoopsBlocks siblingLoops =
        [constLoop 0 4 [stmt 1], constLoop 1 4 [stmt 2]] := by decide
    simp [loopsFormOneChain, h]

/-- C10 (witness): the chain of depth three. -/
theorem chain_interchanges_two_innermost_witness :
    loopsFormOneChain 3 chain3 = true ∧
    ∃ parent child rest,
      walkAffineForOps chain3 = child :: parent :: rest ∧
      rest.length = 1 ∧
      (walkAffineForOps chain3).reverse[1]? = some parent ∧
      (walkAffineForOps chain3).reverse[1 + 1]? = some child ∧
      isInnermostLoop child = true ∧
      perfectlyNested parent child = true ∧
      runOnFunction chain3 = .ok [Effect.interchangeLoops parent child] :=
  ⟨by decide, chain_interchanges_two_innermost.1 1 chain3 (by decide)⟩

/-- Whatever the collaborators answer, the helper refuses the triangular nest,
whose inner upper bound is the outer induction variable, and a run of the pass
leaves it as it was. -/
theorem triangular_nest_refused (env : Collaborators) :
    carriedOut env triangularNest = false ∧
    runPass (interchangeLoops env) triangularNest = .ok triangularNest := by
  have hw : walkAffineForOps triangularNest =
      [.mk (.affineFor (triangularHeader 1 0)) [[[stmt 1]]],
       .mk (.affineFor (constHeader 0 0 8))
        [[[.mk (.affineFor (triangularHeader 1 0)) [[[stmt 1]]]]]]] := by decide
  have hs : slotOfBlocks (.mk (.affineFor (constHeader 0 0 8))
      [[[.mk (.affineFor (triangularHeader 1 0)) [[[stmt 1]]]]]]) triangularNest 0 = some 0 := by
    decide
  have hb : Spec.boundsCrossReference (constHeader 0 0 8) (triangularHeader 1 0) = true := by
    decide
  have hc : carriedOut env triangularNest = false := by
    simp [carriedOut, hw, Spec.apply, exchangeHeaders, hs, Spec.checkPair, hb]
  refine ⟨hc, ?_⟩
  have hx : exchangeHeaders
      (.mk (.affineFor (constHeader 0 0 8))
        [[[.mk (.affineFor (triangularHeader 1 0)) [[[stmt 1]]]]]])
      (.mk (.affineFor (triangularHeader 1 0)) [[[stmt 1]]]) =
      some (.mk (.affineFor (triangularHeader 1 0))
        [[[.mk (.affineFor (constHeader 0 0 8)) [[[stmt 1]]]]]]) := by
    simp [exchangeHeaders]
  rw [runPass_one_call env triangularNest _ _ _ [] hw hx, hc]
  simp

/-- Of two equal nests side by side, the call rewrites the first one, the one
whose loops are at indices 1 and 0 of the collected list, and leaves the second
untouched. -/
theorem twin_nests_first_only :
    runPass (interchangeLoops noDependences) twinNests =
      .ok [[constLoop 1 4 [constLoop 0 4 [stmt 1]], constLoop 0 4 [constLoop 1 4 [stmt 1]]]] := by
  decide

end LoopInterchange
